import Mathlib

/-!
Shallow embedding of the transcript-to-flashcards pipeline of `src/app.py`
(functions `preprocess_transcript`, `chunk_text`, `fix_cloze_formatting`,
`get_anki_cards_for_chunk`, `get_all_anki_cards`).

Strings are modelled as `List Char`.  Python's regular-expression
substitutions are hand-compiled to deterministic matchers: each regex in the
source is fixed, so its backtracking behaviour can be compiled to a function;
comments note every determinization step and why it is faithful.  The
whitespace class is the ASCII part of Python's `\s` (the inputs of all
claims are ASCII).
-/

/-- ASCII whitespace, the ASCII fragment of Python's `str.isspace` / regex `\s`:
space, tab, newline, carriage return, vertical tab, form feed. -/
def pyIsSpace (c : Char) : Bool :=
  c = ' ' || c = '\t' || c = '\n' || c = '\r' || c = Char.ofNat 11 || c = Char.ofNat 12

/-- ASCII word character, the ASCII fragment of regex `\w`: letters, digits, underscore. -/
def isWordC (c : Char) : Bool := c.isAlpha || c.isDigit || c = '_'

/-- Python `str.strip()`: remove leading and trailing whitespace. -/
def pyStrip (l : List Char) : List Char :=
  ((l.dropWhile pyIsSpace).reverse.dropWhile pyIsSpace).reverse

/-- Python slice `text[a:b]` for `0 ≤ a ≤ b` (clamped at the length, empty when `b ≤ a`). -/
def pySlice (text : List Char) (a b : Nat) : List Char := (text.take b).drop a

/-- Scan for `rfind`: greatest index `i` with `lo ≤ i < lo + n` and `text[i] = c`;
checks index `lo + n - 1` first. -/
def rfindGo (text : List Char) (c : Char) (lo : Nat) : Nat → Option Nat
  | 0 => none
  | n + 1 => if text.get? (lo + n) = some c then some (lo + n) else rfindGo text c lo n

/-- Python `text.rfind(c, lo, hi)` for a single character: the greatest index
`i ∈ [lo, min hi len)` with `text[i] = c`, `none` standing for Python's `-1`. -/
def rfind (text : List Char) (c : Char) (lo hi : Nat) : Option Nat :=
  rfindGo text c lo (min hi text.length - lo)

/-- Maximum of two optional positions, `none` acting as Python's `-1`. -/
def maxOpt : Option Nat → Option Nat → Option Nat
  | none, b => b
  | some x, none => some x
  | some x, some y => some (max x y)

/-- The break-point preference of `chunk_text` (`src/app.py` lines 78-99) for
a window `[ss, e0)`: one past the last `.`/`!`/`?` found by the three `rfind`
calls (accumulated through `pos > last_punct`, i.e. their maximum), else one
past the last space when its index exceeds `start`, else `e0`. -/
def pickBreak (text : List Char) (start ss e0 : Nat) : Nat :=
  match maxOpt (rfind text '.' ss e0) (maxOpt (rfind text '!' ss e0) (rfind text '?' ss e0)) with
  | some p => p + 1
  | none =>
    match rfind text ' ' ss e0 with
    | some sp => if start < sp then sp + 1 else e0
    | none => e0

/-- The break-point computation of one iteration of the `chunk_text` loop
(`src/app.py` lines 75-99): tentative end `min (start + max_size) len`; when
that falls short of the end of the text, apply `pickBreak` on the search
window `[max start (end - 250), end)` (the `search_start = max(start, end - 250)`
of line 79). -/
def computeEnd (text : List Char) (start max_size : Nat) : Nat :=
  let e := min (start + max_size) text.length
  if e < text.length then pickBreak text start (Nat.max start (e - 250)) e
  else e

/-- Python `chunks[-1] += " " + chunk`: append `" " ++ chunk` to the last element. -/
def mergeLast : List (List Char) → List Char → List (List Char)
  | [], c => [c]
  | [x], c => [x ++ ' ' :: c]
  | x :: y :: xs, c => x :: mergeLast (y :: xs) c

/-- The `while start < text_len` loop of `chunk_text` (`src/app.py` lines 74-113),
with explicit fuel; `none` models non-termination (fuel exhaustion: the loop
fails to finish within the given number of iterations). -/
def chunkLoop (text : List Char) (max_size min_size : Nat) :
    Nat → List (List Char) → Nat → Option (List (List Char))
  | _, _, 0 => none
  | start, acc, fuel + 1 =>
    if start < text.length then
      let e := computeEnd text start max_size
      let chunk := pyStrip (pySlice text start e)
      if acc ≠ [] ∧ chunk ≠ [] ∧ chunk.length < min_size then
        chunkLoop text max_size min_size e (mergeLast acc chunk) fuel
      else if chunk ≠ [] then
        chunkLoop text max_size min_size e (acc ++ [chunk]) fuel
      else
        chunkLoop text max_size min_size e acc fuel
    else some acc

/-- Function `chunk_text(text, max_size, min_size=200)` of `src/app.py` line 65.  The fuel
`text.length + 1` suffices whenever `0 < max_size` (each iteration strictly
advances the cursor), so `none` arises exactly when the Python loop diverges. -/
def chunk_text (text : List Char) (max_size : Nat) (min_size : Nat := 200) :
    Option (List (List Char)) :=
  chunkLoop text max_size min_size 0 [] (text.length + 1)

/-!
## Card normalizer: `fix_cloze_formatting` (`src/app.py` lines 119-151)

The primary regex is
`\{{1,2}\s*c(\d+)\s*::\s*(.*?)\s*(?:::\s*(.*?)\s*)?\}\}{1,2}`
(note: the closing part `\}\}{1,2}` matches TWO or THREE closing braces).
It is hand-compiled below.  Every `\s*` whose follower cannot match a
whitespace character is a deterministic maximal munch; the two lazy groups
`(.*?)` are compiled to shortest-first loops whose step characters exclude
`'\n'` (the pattern is compiled without `re.DOTALL`).
-/

/-- The closing `\}\}{1,2}` of the primary cloze regex: two or three `'}'`
characters, greedily preferring three.  Returns the rest after the braces. -/
def closeBraces : List Char → Option (List Char)
  | '}' :: '}' :: '}' :: r => some r
  | '}' :: '}' :: r => some r
  | _ => none

/-- Lazy scan for the hint group body: grow the captured hint one non-newline
character at a time, at each stage first trying to finish with `\s*` and the
closing braces. -/
def hintLoop (hacc : List Char) : List Char → Option (List Char × List Char)
  | [] => none
  | c :: rest =>
    match closeBraces ((c :: rest).dropWhile pyIsSpace) with
    | some r => some (hacc, r)
    | none => if c = '\n' then none else hintLoop (hacc ++ [c]) rest

/-- After the lazily captured answer: `\s*` (maximal munch: what follows must
start with `':'` or `'}'`, never whitespace), then greedily try the optional
hint group `(?:::\s*(.*?)\s*)?`, falling back to the closing braces alone.
Returns the optional hint capture and the rest after the match. -/
def clozeTail (rem : List Char) : Option (Option (List Char) × List Char) :=
  let r1 := rem.dropWhile pyIsSpace
  match r1 with
  | ':' :: ':' :: r2 =>
    (match hintLoop [] (r2.dropWhile pyIsSpace) with
     | some (h, rest) => some (some h, rest)
     | none => (closeBraces r1).map (fun r => (none, r)))
  | _ => (closeBraces r1).map (fun r => (none, r))

/-- Lazy scan for the answer group `(.*?)`: grow the captured answer one
non-newline character at a time, at each stage first trying `clozeTail`. -/
def answerLoop (aacc : List Char) : List Char → Option (List Char × Option (List Char) × List Char)
  | [] => none
  | c :: rest =>
    match clozeTail (c :: rest) with
    | some (h, rest2) => some (aacc, h, rest2)
    | none => if c = '\n' then none else answerLoop (aacc ++ [c]) rest

/-- Body of the primary cloze regex after the opening braces:
`\s* c (\d+) \s* :: \s*` then the lazy answer and the tail.  All three `\s*`
are maximal munches (their followers `'c'`, a digit, and `':'` are never
whitespace, and for the one preceding the lazy answer group, any parse the
shorter munches could reach is also reachable - and tried first - from the
maximal munch, because `\s` includes `'\n'` while the lazy `.` does not).
Returns `(digits, answer, hint?, rest)`. -/
def clozeBody (t : List Char) : Option (List Char × List Char × Option (List Char) × List Char) :=
  match t.dropWhile pyIsSpace with
  | 'c' :: t2 =>
    let digits := t2.takeWhile Char.isDigit
    if digits = [] then none
    else
      match (t2.drop digits.length).dropWhile pyIsSpace with
      | ':' :: ':' :: t5 =>
        match answerLoop [] (t5.dropWhile pyIsSpace) with
        | some (a, h, rest) => some (digits, a, h, rest)
        | none => none
      | _ => none
  | _ => none

/-- Strip brace characters, Python `re.sub(r'[{}]', '', s)`. -/
def removeBraces (l : List Char) : List Char := l.filter (fun c => !(c = '{' || c = '}'))

/-- The replacement function `replace_match` of `fix_cloze_formatting`
(`src/app.py` lines 129-140): canonical `{{cN::answer}}` or
`{{cN::answer::hint}}`, the hint used only when captured and non-empty
(Python truthiness of `match.group(3)`), with stripping and brace removal
exactly as in the source. -/
def mkRepl : List Char × List Char × Option (List Char) × List Char → List Char × List Char
  | (digits, a, h, rest) =>
    let num := pyStrip digits
    let answer := removeBraces (pyStrip a)
    match h with
    | some hv =>
      if hv ≠ [] then
        (['{', '{', 'c'] ++ num ++ [':', ':'] ++ answer ++ [':', ':'] ++
          removeBraces (pyStrip hv) ++ ['}', '}'], rest)
      else (['{', '{', 'c'] ++ num ++ [':', ':'] ++ answer ++ ['}', '}'], rest)
    | none => (['{', '{', 'c'] ++ num ++ [':', ':'] ++ answer ++ ['}', '}'], rest)

/-- The primary cloze regex, anchored at the head of `s`: `\{{1,2}` (greedy,
two opening braces preferred) then `clozeBody`.  Returns the replacement and
the rest of the string after the match. -/
def matchCloze (s : List Char) : Option (List Char × List Char) :=
  match s with
  | [] => none
  | c1 :: t1 =>
    if c1 = '{' then
      match t1 with
      | c2 :: t2 =>
        if c2 = '{' then (clozeBody t2).map mkRepl <|> (clozeBody t1).map mkRepl
        else (clozeBody t1).map mkRepl
      | [] => (clozeBody t1).map mkRepl
    else none

/-- Model of `re.sub` with a replacement-producing matcher: scan left to right, replace
each leftmost non-overlapping match, resume after the matched region.  The fuel
bounds the number of scan steps; `input.length + 1` always suffices because
every match of the patterns used here consumes at least one character. -/
def subRepl (m : List Char → Option (List Char × List Char)) : Nat → List Char → List Char
  | 0, s => s
  | _ + 1, [] => []
  | fuel + 1, c :: rest =>
    match m (c :: rest) with
    | some (repl, restAfter) =>
      let n := (c :: rest).length - restAfter.length
      if n = 0 then c :: subRepl m fuel rest
      else repl ++ subRepl m fuel ((c :: rest).drop n)
    | none => c :: subRepl m fuel rest

/-- Python `pat in s` for strings: some contiguous substring of `s` equals `pat`. -/
def hasInfix (pat : List Char) : List Char → Bool
  | [] => pat.isEmpty
  | c :: rest => pat.isPrefixOf (c :: rest) || hasInfix pat rest

/-- Lazy scan of the fallback regex body `(.*?)\}`: capture up to the first
`'}'`, not crossing a newline. -/
def fbScan : List Char → Option (List Char × List Char)
  | '}' :: rest => some ([], rest)
  | c :: rest => if c = '\n' then none else (fbScan rest).map (fun p => (c :: p.1, p.2))
  | [] => none

/-- The fallback regex `\{c(\d+)::(.*?)\}` with template replacement
`{{c\1::\2}}` (`src/app.py` line 147), anchored at the head of `s`.  `\d+` is a
maximal munch: a shorter digit run would leave a digit where `::` is required. -/
def matchFb (s : List Char) : Option (List Char × List Char) :=
  match s with
  | '{' :: 'c' :: t =>
    let digits := t.takeWhile Char.isDigit
    if digits = [] then none
    else
      match t.drop digits.length with
      | ':' :: ':' :: u =>
        (fbScan u).map
          (fun p => (['{', '{', 'c'] ++ digits ++ [':', ':'] ++ p.1 ++ ['}', '}'], p.2))
      | _ => none
  | _ => none

/-- Function `fix_cloze_formatting` of `src/app.py` lines 119-151: primary substitution,
then - only when the result contains neither `"{{"` nor `"}}"` but does contain
`"{c"`, `"::"` and `"}"` - the single-brace fallback substitution followed by a
re-run of the primary substitution. -/
def fix_cloze_formatting (card : List Char) : List Char :=
  let corrected := subRepl matchCloze (card.length + 1) card
  if !(hasInfix ['{', '{'] corrected) && !(hasInfix ['}', '}'] corrected) then
    if hasInfix ['{', 'c'] corrected && hasInfix [':', ':'] corrected &&
        hasInfix ['}'] corrected then
      let fb := subRepl matchFb (corrected.length + 1) corrected
      subRepl matchCloze (fb.length + 1) fb
    else corrected
  else corrected

/-!
## Preprocessor: `preprocess_transcript` (`src/app.py` lines 36-63)

Nine regex deletions followed by whitespace collapsing and stripping.  Each
regex is hand-compiled to a matcher; `re.sub` matches are always evaluated
against the original string positions, so matchers receive the character that
precedes the current position (needed for `\b` and for `^` under
`re.MULTILINE`).
-/

/-- Expect exactly `n` digits, returning the rest. -/
def expectDigits : Nat → List Char → Option (List Char)
  | 0, s => some s
  | n + 1, c :: rest => if c.isDigit then expectDigits n rest else none
  | _ + 1, [] => none

/-- Expect one given character, returning the rest. -/
def expectChar (c : Char) : List Char → Option (List Char)
  | d :: rest => if d = c then some rest else none
  | [] => none

/-- One timestamp `\d{2}:\d{2}:\d{2}[.,]\d{3}` (when `dotOk` is false only `','`
is accepted, as in the SRT-only pattern of `src/app.py` line 46). -/
def parseTS (dotOk : Bool) (s : List Char) : Option (List Char) := do
  let s ← expectDigits 2 s
  let s ← expectChar ':' s
  let s ← expectDigits 2 s
  let s ← expectChar ':' s
  let s ← expectDigits 2 s
  let s ←
    match s with
    | c :: rest => if c = ',' || (dotOk && c = '.') then some rest else none
    | [] => none
  expectDigits 3 s

/-- The VTT/SRT range pattern `TS\s*-->\s*TS\s*\n?` (`src/app.py` lines 44-46).
All `\s*` are maximal munches (`'-'` and the timestamp digits are never
whitespace), and the trailing `\s*\n?` consumes exactly the maximal whitespace
run (the greedy `\s*` eats it and the optional `\n?` then matches empty). -/
def matchArrow (dotOk : Bool) (s : List Char) : Option (List Char) := do
  let s ← parseTS dotOk s
  let s := s.dropWhile pyIsSpace
  let s ← expectChar '-' s
  let s ← expectChar '-' s
  let s ← expectChar '>' s
  let s := s.dropWhile pyIsSpace
  let s ← parseTS dotOk s
  some (s.dropWhile pyIsSpace)

/-- Wordness of the optional preceding character (start of string is non-word). -/
def wordOpt : Option Char → Bool
  | some c => isWordC c
  | none => false

/-- Tail of the bare-timestamp pattern after the final digit group: the `\b`
(the previous character is a digit, so the boundary holds exactly when the next
character is absent or non-word), then `\]?` and `\s*`. -/
def finishBare (v : List Char) : Option (List Char) :=
  match v with
  | [] => some []
  | c :: rest =>
    if isWordC c then none
    else if c = ']' then some (rest.dropWhile pyIsSpace)
    else some ((c :: rest).dropWhile pyIsSpace)

/-- The optional fraction group `([.,]\d+)?` of the bare-timestamp pattern,
greedily preferred.  The `\d+` is a maximal munch: after any shorter digit run
the next character is a digit, so the following `\b` fails there as well. -/
def tryFrac (v : List Char) : Option (List Char) :=
  match v with
  | c :: w =>
    if c = '.' || c = ',' then
      let digs := w.takeWhile Char.isDigit
      if digs = [] then none else finishBare (w.drop digs.length)
    else none
  | [] => none

/-- After `\d{1,2}:\d{2}` of the bare-timestamp pattern: greedily try the
fraction group, else finish directly. -/
def afterMM (v : List Char) : Option (List Char) :=
  (tryFrac v) <|> (finishBare v)

/-- The optional seconds group `(:\d{2})?` of the bare-timestamp pattern,
greedily preferred (with the rest of the pattern after it). -/
def trySecs (v : List Char) : Option (List Char) := do
  let w ← expectChar ':' v
  let w ← expectDigits 2 w
  afterMM w

/-- Core of the bare-timestamp pattern from its first digit:
`\d{1,2}:\d{2}(:\d{2})?([.,]\d+)?\b\]?\s*`.  The leading `\d{1,2}` is greedy:
two digits are tried before one. -/
def bareCore (u : List Char) : Option (List Char) :=
  let ds := u.takeWhile Char.isDigit
  let tryN : Nat → Option (List Char) := fun n =>
    if ds.length < n then none
    else do
      let v ← expectChar ':' (u.drop n)
      let v ← expectDigits 2 v
      (trySecs v) <|> (afterMM v)
  if ds.length ≥ 2 then (tryN 2) <|> (tryN 1) else tryN 1

/-- The bare-timestamp pattern `\[?\b\d{1,2}:\d{2}(:\d{2})?([.,]\d+)?\b\]?\s*`
(`src/app.py` line 48), anchored at the current position with preceding
character `prev`.  When `'['` is consumed, the `\b` between `'['` (non-word)
and the required digit always holds; when it is not, the `\b` requires a
non-word (or absent) preceding character, since the next character must be a
digit.  Declining to consume a leading `'['` can never succeed (the `\d` would
have to match `'['`), so no backtracking over `\[?` is needed. -/
def matchBareTs (prev : Option Char) (s : List Char) : Option (List Char) :=
  match s with
  | '[' :: t => bareCore t
  | _ => if wordOpt prev then none else bareCore s

/-- Line-start test for `^` under `re.MULTILINE`: start of string or right
after a newline. -/
def atLineStart : Option Char → Bool
  | none => true
  | some c => c = '\n'

/-- For the SRT-index pattern: after the digits, greedily consume `j`
whitespace characters (from the maximal run downwards) such that the position
after them satisfies `$` under `re.MULTILINE` (end of string or before a
newline). -/
def srtIdxJ (rest : List Char) : Nat → Option Nat
  | 0 =>
    (match rest with
     | [] => some 0
     | c :: _ => if c = '\n' then some 0 else none)
  | j + 1 =>
    match rest.drop (j + 1) with
    | [] => some (j + 1)
    | c :: _ => if c = '\n' then some (j + 1) else srtIdxJ rest j

/-- The SRT-index pattern `^\d+\s*$` with `re.MULTILINE` (`src/app.py` line 50).
`\d+` is a maximal munch: after a shorter digit run the next character is a
digit, which neither `\s` nor `$` accepts. -/
def matchSrtIdx (prev : Option Char) (s : List Char) : Option (List Char) :=
  if !(atLineStart prev) then none
  else
    let digs := s.takeWhile Char.isDigit
    if digs = [] then none
    else
      let rest := s.drop digs.length
      match srtIdxJ rest (rest.takeWhile pyIsSpace).length with
      | some j => some (rest.drop j)
      | none => none

/-- Character class `[a-zA-Z0-9\s_]` of the speaker-label pattern. -/
def isSpkClass (c : Char) : Bool := c.isAlpha || c.isDigit || pyIsSpace c || c = '_'

/-- The speaker-label pattern `^[A-Z][a-zA-Z0-9\s_]+:\s*` with `re.MULTILINE`
(`src/app.py` line 52).  The `+` is a maximal munch: `':'` is not in the class,
so the class run must stop exactly where the maximal run stops. -/
def matchSpeaker (prev : Option Char) (s : List Char) : Option (List Char) :=
  if !(atLineStart prev) then none
  else
    match s with
    | c :: t =>
      if 'A'.toNat ≤ c.toNat && c.toNat ≤ 'Z'.toNat then
        let run := t.takeWhile isSpkClass
        if run = [] then none
        else
          match t.drop run.length with
          | ':' :: r => some (r.dropWhile pyIsSpace)
          | _ => none
      else none
    | [] => none

/-- Case-insensitive literal match, returning the rest (for `re.IGNORECASE`). -/
def dropCI : List Char → List Char → Option (List Char)
  | [], s => some s
  | p :: ps, c :: cs => if c.toLower = p.toLower then dropCI ps cs else none
  | _ :: _, [] => none

/-- Case-sensitive literal match, returning the rest. -/
def dropCS : List Char → List Char → Option (List Char)
  | [], s => some s
  | p :: ps, c :: cs => if c = p then dropCS ps cs else none
  | _ :: _, [] => none

/-- Body `.*?\n(\n|$)` without `re.DOTALL` (the WEBVTT pattern, `src/app.py`
line 54): the lazy `.*?` cannot cross a newline, so the literal `\n` must be
the first newline; the group then consumes a second newline (preferred) or
matches `$` at the end of string. -/
def vttBody : List Char → Option (List Char)
  | [] => none
  | c :: rest =>
    if c = '\n' then
      match rest with
      | [] => some []
      | d :: r2 => if d = '\n' then some r2 else none
    else vttBody rest

/-- Body `.*?\n(\n|$)` with `re.DOTALL` (the NOTE/STYLE/REGION patterns,
`src/app.py` lines 55-57): the lazy `.*?` may cross newlines, so the match ends
at the first newline that is followed by another newline or the string end. -/
def dotallBody : List Char → Option (List Char)
  | [] => none
  | c :: rest =>
    if c = '\n' then
      match rest with
      | [] => some []
      | d :: r2 => if d = '\n' then some r2 else dotallBody rest
    else dotallBody rest

/-- One header-block deletion with a `^`-anchored pattern (no `re.MULTILINE`,
so the pattern can only ever match at the very start of the string): when the
literal and body match there, the matched region is deleted. -/
def stripHeader (lit : List Char) (ci : Bool) (dotall : Bool) (s : List Char) : List Char :=
  match (if ci then dropCI lit s else dropCS lit s) with
  | some rest =>
    (match (if dotall then dotallBody rest else vttBody rest) with
     | some r => r
     | none => s)
  | none => s

/-- Model of `re.sub(pattern, '', s)` for a deletion-only matcher that may consult the
preceding character: scan left to right, delete each leftmost non-overlapping
match, resume after it against the original positions.  `input.length + 1`
fuel always suffices (every match consumes at least one character). -/
def subDel (m : Option Char → List Char → Option (List Char)) :
    Nat → Option Char → List Char → List Char
  | 0, _, s => s
  | _ + 1, _, [] => []
  | fuel + 1, prev, c :: rest =>
    match m prev (c :: rest) with
    | some restAfter =>
      let n := (c :: rest).length - restAfter.length
      if n = 0 then c :: subDel m fuel (some c) rest
      else subDel m fuel ((c :: rest).get? (n - 1)) ((c :: rest).drop n)
    | none => c :: subDel m fuel (some c) rest

/-- Scan for `re.sub(r'\s+', ' ', s)`: the flag records whether the previous
character was inside a whitespace run (whose first character already emitted
the single replacement space). -/
def collapseGo : Bool → List Char → List Char
  | _, [] => []
  | inWs, c :: rest =>
    if pyIsSpace c then
      if inWs then collapseGo true rest else ' ' :: collapseGo true rest
    else c :: collapseGo false rest

/-- Model of `re.sub(r'\s+', ' ', s)`: every maximal whitespace run becomes one space. -/
def collapseWs (s : List Char) : List Char := collapseGo false s

/-- The VTT-range deletion, `src/app.py` line 44. -/
def vttSub (s : List Char) : List Char := subDel (fun _ u => matchArrow true u) (s.length + 1) none s

/-- The SRT-range deletion, `src/app.py` line 46. -/
def srtSub (s : List Char) : List Char := subDel (fun _ u => matchArrow false u) (s.length + 1) none s

/-- The bare-timestamp deletion, `src/app.py` line 48. -/
def bareTsSub (s : List Char) : List Char := subDel matchBareTs (s.length + 1) none s

/-- The SRT-index deletion, `src/app.py` line 50. -/
def srtIdxSub (s : List Char) : List Char := subDel matchSrtIdx (s.length + 1) none s

/-- The speaker-label deletion, `src/app.py` line 52. -/
def speakerSub (s : List Char) : List Char := subDel matchSpeaker (s.length + 1) none s

/-- Function `preprocess_transcript` of `src/app.py` lines 36-63: the nine regex
deletions in source order, then whitespace collapsing and stripping. -/
def preprocess_transcript (t : List Char) : List Char :=
  if t = [] then []
  else
    let s9 :=
      stripHeader (String.toList "REGION") false true
        (stripHeader (String.toList "STYLE") false true
          (stripHeader (String.toList "NOTE") false true
            (stripHeader (String.toList "WEBVTT") true false
              (speakerSub (srtIdxSub (bareTsSub (srtSub (vttSub t))))))))
    pyStrip (collapseWs s9)

/-!
## Orchestrator: `get_anki_cards_for_chunk` and `get_all_anki_cards`
(`src/app.py` lines 153-282)

The external OpenAI call is the injected boundary `api`: it maps a chunk to
`none` (an exception was raised inside the call or the response could not be
parsed - both handled branches of `get_anki_cards_for_chunk` return `[]`) or
`some cards` (the parsed list of raw card strings).
-/

/-- Python `s.isspace()`: non-empty and all whitespace. -/
def pyIsspaceStr (s : List Char) : Bool := !s.isEmpty && s.all pyIsSpace

/-- Function `get_anki_cards_for_chunk` (`src/app.py` lines 153-242) at the adapter
boundary: a failed or unparseable call contributes `[]` (the `except` branch at
lines 238-241 and the parse-error branches); a successful parse filters out
falsy / whitespace-only cards and normalizes each with `fix_cloze_formatting`
(line 226). -/
def get_anki_cards_for_chunk (api : List Char → Option (List (List Char)))
    (chunk : List Char) : List (List Char) :=
  match api chunk with
  | none => []
  | some cards =>
    (cards.filter (fun c => !c.isEmpty && !(pyStrip c).isEmpty)).map fix_cloze_formatting

/-- The sequence of chunks actually passed to the per-chunk generation call by
`get_all_anki_cards` (`src/app.py` lines 244-282): empty on the three early
returns (empty/whitespace transcript, empty cleaned transcript, no chunks);
otherwise the chunks in order, skipping empty or whitespace-only ones
(lines 266-268). -/
def get_all_calls (transcript : List Char) (max_chunk_size : Nat := 8000) : List (List Char) :=
  if transcript.isEmpty || pyIsspaceStr transcript then []
  else
    let cleaned := preprocess_transcript transcript
    if cleaned.isEmpty then []
    else
      let chunks := (chunk_text cleaned max_chunk_size).getD []
      if chunks.isEmpty then []
      else chunks.filter (fun c => !(c.isEmpty || pyIsspaceStr c))

/-- Function `get_all_anki_cards` (`src/app.py` lines 244-282): the concatenation, in
order, of the per-chunk results over the chunks actually sent to the adapter
(the loop at lines 263-278 `extend`s `all_cards` with each chunk's list). -/
def get_all_anki_cards (api : List Char → Option (List (List Char)))
    (transcript : List Char) (max_chunk_size : Nat := 8000) : List (List Char) :=
  ((get_all_calls transcript max_chunk_size).map (get_anki_cards_for_chunk api)).flatten

/-!
## Specification predicates and concrete inputs used by the claims
-/

/-- The non-whitespace characters of a string, in order. -/
def nwChars (l : List Char) : List Char := l.filter (fun c => !pyIsSpace c)

/-- Join a list of pieces with single separating spaces (the shape a merged
chunk has: the pieces it absorbed, one space between consecutive pieces). -/
def joinSp : List (List Char) → List Char
  | [] => []
  | [x] => x
  | x :: y :: xs => x ++ ' ' :: joinSp (y :: xs)

/-- A chunk respects the size bound up to merging: it is a space-joined
concatenation of one or more pieces, each of length at most `max_size` (an
unmerged chunk is the one-piece case, i.e. its length is at most `max_size`). -/
def chunkBound (max_size : Nat) (c : List Char) : Prop :=
  ∃ ps, ps ≠ [] ∧ (∀ p ∈ ps, p.length ≤ max_size) ∧ c = joinSp ps

/-- Sentence-terminal punctuation at index `i` of `text`. -/
def punctAt (text : List Char) (i : Nat) : Prop :=
  text.get? i = some '.' ∨ text.get? i = some '!' ∨ text.get? i = some '?'

/-- Characterization of the break-point choice of one `chunk_text` iteration
whose tentative end falls short of the end of the text: with
`e0 = min (start+max_size) len` and search window `[max start (e0-250), e0)`,
the cut is one past the last sentence-terminal punctuation in the window; else
one past the last space in the window when its index exceeds `start`; else the
hard cutoff `e0`. -/
def breakSpec (text : List Char) (start max_size : Nat) : Prop :=
  let e0 := min (start + max_size) text.length
  let ss := Nat.max start (e0 - 250)
  let e := computeEnd text start max_size
  (∃ p, ss ≤ p ∧ p < e0 ∧ punctAt text p ∧
      (∀ j, p < j → j < e0 → ¬ punctAt text j) ∧ e = p + 1) ∨
  ((∀ j, ss ≤ j → j < e0 → ¬ punctAt text j) ∧
    (∃ sp, ss ≤ sp ∧ sp < e0 ∧ text.get? sp = some ' ' ∧
      (∀ j, sp < j → j < e0 → text.get? j ≠ some ' ') ∧ start < sp ∧ e = sp + 1)) ∨
  ((∀ j, ss ≤ j → j < e0 → ¬ punctAt text j) ∧
    ((∀ j, ss ≤ j → j < e0 → text.get? j ≠ some ' ') ∨
      (∃ sp, ss ≤ sp ∧ sp < e0 ∧ sp ≤ start ∧ text.get? sp = some ' ' ∧
        (∀ j, sp < j → j < e0 → text.get? j ≠ some ' '))) ∧ e = e0)

/-- A string is single-spaced: no two adjacent whitespace characters, every
whitespace character is a plain space, and neither end is whitespace. -/
def singleSpaced (l : List Char) : Prop :=
  List.Chain' (fun a b => ¬(pyIsSpace a = true ∧ pyIsSpace b = true)) l ∧
  (∀ c ∈ l, pyIsSpace c = true → c = ' ') ∧
  (∀ c, l.head? = some c → pyIsSpace c = false) ∧
  (∀ c, l.getLast? = some c → pyIsSpace c = false)

/-- Counterexample input for claim C1: a canonical cloze marker followed by two
extra closing braces. -/
def c1Input : List Char := ['{', '{', 'c', '1', ':', ':', 'a', '}', '}', '}', '}']

/-- Counterexample input for claim C9: 300 letters with no break point. -/
def t300a : List Char := List.replicate 300 'a'

/-- Counterexample input for claim C3: a 250-character sentence, a short
51-character sentence (which gets merged into the first chunk), then 250 more
characters. -/
def tC3 : List Char :=
  (List.replicate 249 'a' ++ ['.']) ++ (List.replicate 50 'b' ++ ['.']) ++ List.replicate 250 'c'

/-- Counterexample input for claim C5: a period at index 10, then no break
point at all until a space at index 300; with `max_size = 300` the punctuation
search window is `[50, 300)`, which misses the period. -/
def tC5 : List Char :=
  (List.replicate 10 'a' ++ ['.']) ++ List.replicate 289 'b' ++ (' ' :: String.toList "end.")

/-- Witness transcript for claim C4: preprocessing leaves it unchanged and it
splits into exactly two chunks under `max_chunk_size = 205`. -/
def tW : List Char := (String.toList "ab.") ++ List.replicate 205 'b' ++ ['.']

/-- The two chunks `chunk_text` produces for `tW` at `max_chunk_size = 205`. -/
def csW : List (List Char) :=
  [String.toList "ab.", List.replicate 205 'b' ++ [' ', '.']]

/-- Witness adapter stub for claim C4: fails (raises) on the first chunk,
succeeds with one raw card on every other chunk. -/
def apiW : List Char → Option (List (List Char)) :=
  fun c => if c = String.toList "ab." then none
           else some [['{', 'c', '1', ':', ':', 'x', '}']]

/-!
## Claim theorems
-/

/-- C1 (counterexample): normalization is not idempotent.  On the input
`"{{c1::a}}}}"` one application of `fix_cloze_formatting` yields
`"{{c1::a}}}"` and a second application yields `"{{c1::a}}"`: the closing part
`\}\}{1,2}` of the primary regex consumes two or three closing braces, so each
pass absorbs one extra trailing brace. -/
theorem claim1_counterexample :
    fix_cloze_formatting c1Input = ['{', '{', 'c', '1', ':', ':', 'a', '}', '}', '}'] ∧
    fix_cloze_formatting (fix_cloze_formatting c1Input) ≠ fix_cloze_formatting c1Input := by
  constructor
  · decide
  · decide

/-- C6: the three cloze canonicalization examples of the spec:
`"{c1::Paris}"` becomes `"{{c1::Paris}}"` (via the single-brace fallback),
`"{{ c2 :: answer :: hint }}"` becomes `"{{c2::answer::hint}}"`, and
`"No cloze here."` is unchanged. -/
theorem claim6_cloze_examples :
    fix_cloze_formatting ['{', 'c', '1', ':', ':', 'P', 'a', 'r', 'i', 's', '}'] =
      ['{', '{', 'c', '1', ':', ':', 'P', 'a', 'r', 'i', 's', '}', '}'] ∧
    fix_cloze_formatting
        (['{', '{', ' ', 'c', '2', ' ', ':', ':', ' '] ++ String.toList "answer" ++
          [' ', ':', ':', ' '] ++ String.toList "hint" ++ [' ', '}', '}']) =
      (['{', '{', 'c', '2', ':', ':'] ++ String.toList "answer" ++ [':', ':'] ++
        String.toList "hint" ++ ['}', '}']) ∧
    fix_cloze_formatting (String.toList "No cloze here.") = String.toList "No cloze here." := by
  refine ⟨by decide, by decide, by decide⟩

/-- C2 (counterexample): chunk coverage fails as stated.  For the text
`"ab  cd"` with `max_size = 4` the chunker cuts after the space, strips the
slice `"ab  "` to `"ab"` (dropping both spaces), and then merges the short
piece `"cd"` back, producing the single chunk `"ab cd"`.  The original text is
not even a subsequence of the concatenation, so no removal of inserted
merge-separator spaces can reproduce it: characters (boundary whitespace) were
dropped. -/
theorem claim2_counterexample :
    chunk_text (String.toList "ab  cd") 4 = some [String.toList "ab cd"] ∧
    ¬ List.Sublist (String.toList "ab  cd") (String.toList "ab cd") := by
  constructor
  · decide
  · decide

set_option maxRecDepth 1000000 in
/-- C3 (counterexample): the chunk size bound fails as stated.  For `tC3` with
`max_size = 250` (default `min_size = 200`) the second 51-character sentence is
merged into the first 250-character chunk, yielding a first (non-final) chunk
of length 302 > 250, even though break points (periods) existed in every
window; a hard cutoff can never exceed `max_size`, so the stated exception
cannot account for it. -/
theorem claim3_counterexample :
    (chunk_text tC3 250).map (fun cs => cs.map List.length) = some [302, 250] := by
  decide

set_option maxRecDepth 1000000 in
/-- C5 (counterexample): the break-point search does not cover the whole
window `[start, end)`.  For `tC5` (length 305) with `max_size = 300`, the only
period of the window sits at index 10, but the code searches only
`[max(start, end-250), end) = [50, 300)`, finds neither punctuation nor space
there, and takes the hard cutoff: the first chunk is the raw 300-character
slice, not the 11-character sentence the claim mandates. -/
theorem claim5_counterexample :
    chunk_text tC5 300 0 = some [tC5.take 300, String.toList "end."] ∧
    tC5.take 300 ≠ pyStrip (tC5.take 11) := by
  constructor
  · decide
  · decide

/-- C8 (counterexample): the preprocessor output can still contain a substring
matching the bare-timestamp pattern.  On input `"1:0:00 23"` the single
substitution pass removes `"0:00 "`, and the juxtaposition of the remainder
forms `"1:23"`; running the bare-timestamp deletion on that output would
remove it entirely, i.e. the output matches the timestamp pattern. -/
theorem claim8_counterexample :
    preprocess_transcript (String.toList "1:0:00 23") = String.toList "1:23" ∧
    bareTsSub (String.toList "1:23") = [] := by
  constructor
  · decide
  · decide

set_option maxRecDepth 1000000 in
/-- C9 (counterexample): the chunker's default minimum size is not 100.  On
300 identical letters with `max_size = 150` the default call merges the second
150-character piece into the first (because 150 < 200), while an explicit
`min_size = 100` keeps two chunks. -/
theorem claim9_counterexample :
    chunk_text t300a 150 ≠ chunk_text t300a 150 100 := by
  decide

/-- C9 (amended): the default minimum chunk size of `chunk_text` is 200, not
100: calling the chunker without an explicit `min_size` behaves identically to
calling it with `min_size = 200`. -/
theorem claim9_default_min :
    ∀ (text : List Char) (max_size : Nat),
      chunk_text text max_size = chunk_text text max_size 200 :=
  fun _ _ => rfl

/-!
## Helper lemmas: `rfind`, `computeEnd`, termination of the chunk loop
-/

theorem rfindGo_some_spec (text : List Char) (c : Char) (lo : Nat) :
    ∀ n i, rfindGo text c lo n = some i →
      lo ≤ i ∧ i < lo + n ∧ text.get? i = some c ∧
        (∀ j, i < j → j < lo + n → text.get? j ≠ some c) := by
  intro n
  induction n with
  | zero => intro i h; simp [rfindGo] at h
  | succ n ih =>
    intro i h
    simp only [rfindGo] at h
    by_cases hc : text.get? (lo + n) = some c
    · rw [if_pos hc] at h
      cases h
      exact ⟨Nat.le_add_right _ _, by omega, hc, fun j h1 h2 => by omega⟩
    · rw [if_neg hc] at h
      obtain ⟨h1, h2, h3, h4⟩ := ih i h
      refine ⟨h1, by omega, h3, fun j hj1 hj2 => ?_⟩
      by_cases hj : j = lo + n
      · exact hj ▸ hc
      · exact h4 j hj1 (by omega)

theorem rfindGo_none_spec (text : List Char) (c : Char) (lo : Nat) :
    ∀ n, rfindGo text c lo n = none →
      ∀ j, lo ≤ j → j < lo + n → text.get? j ≠ some c := by
  intro n
  induction n with
  | zero => intro _ j h1 h2; omega
  | succ n ih =>
    intro h j h1 h2
    simp only [rfindGo] at h
    by_cases hc : text.get? (lo + n) = some c
    · rw [if_pos hc] at h; cases h
    · rw [if_neg hc] at h
      by_cases hj : j = lo + n
      · exact hj ▸ hc
      · exact ih h j h1 (by omega)

theorem rfind_some_spec (text : List Char) (c : Char) (lo hi i : Nat)
    (hlo : lo ≤ hi) (hhi : hi ≤ text.length) (h : rfind text c lo hi = some i) :
    lo ≤ i ∧ i < hi ∧ text.get? i = some c ∧
      (∀ j, i < j → j < hi → text.get? j ≠ some c) := by
  unfold rfind at h
  have hmin : min hi text.length = hi := Nat.min_eq_left hhi
  rw [hmin] at h
  have := rfindGo_some_spec text c lo (hi - lo) i h
  rw [Nat.add_sub_cancel' hlo] at this
  exact this

theorem rfind_none_spec (text : List Char) (c : Char) (lo hi : Nat)
    (hhi : hi ≤ text.length) (h : rfind text c lo hi = none) :
    ∀ j, lo ≤ j → j < hi → text.get? j ≠ some c := by
  unfold rfind at h
  have hmin : min hi text.length = hi := Nat.min_eq_left hhi
  rw [hmin] at h
  intro j h1 h2
  exact rfindGo_none_spec text c lo (hi - lo) h j h1 (by omega)

theorem maxOpt_some_cases (a b : Option Nat) (p : Nat) (h : maxOpt a b = some p) :
    a = some p ∨ b = some p := by
  rcases a with _ | x <;> rcases b with _ | y <;> simp [maxOpt] at h ⊢ <;> try simp [h]
  rcases Nat.le_total x y with hxy | hxy
  · right; rw [← h]; simp [Nat.max_eq_right hxy]
  · left; rw [← h]; simp [Nat.max_eq_left hxy]

theorem maxOpt_lower_left (a b : Option Nat) (p x : Nat)
    (h : maxOpt a b = some p) (ha : a = some x) : x ≤ p := by
  subst ha
  rcases b with _ | y <;> simp [maxOpt] at h <;> omega

theorem maxOpt_lower_right (a b : Option Nat) (p y : Nat)
    (h : maxOpt a b = some p) (hb : b = some y) : y ≤ p := by
  subst hb
  rcases a with _ | x <;> simp [maxOpt] at h <;> omega

theorem maxOpt_none (a b : Option Nat) (h : maxOpt a b = none) :
    a = none ∧ b = none := by
  rcases a with _ | x <;> rcases b with _ | y <;> simp [maxOpt] at h ⊢

/-- When the tentative end falls short of the text, it equals `start + max_size`. -/
theorem tentative_eq (text : List Char) (start max_size : Nat)
    (h : min (start + max_size) text.length < text.length) :
    min (start + max_size) text.length = start + max_size := by
  rcases Nat.le_total (start + max_size) text.length with hle | hle
  · exact Nat.min_eq_left hle
  · rw [Nat.min_eq_right hle] at h; omega

theorem pickBreak_cases (text : List Char) (start ss e0 : Nat)
    (hsse : ss ≤ e0) (hE : e0 ≤ text.length) :
    (∃ p, ss ≤ p ∧ p < e0 ∧ punctAt text p ∧
      (∀ j, p < j → j < e0 → ¬ punctAt text j) ∧ pickBreak text start ss e0 = p + 1) ∨
    ((∀ j, ss ≤ j → j < e0 → ¬ punctAt text j) ∧
      (∃ sp, ss ≤ sp ∧ sp < e0 ∧ text.get? sp = some ' ' ∧
        (∀ j, sp < j → j < e0 → text.get? j ≠ some ' ') ∧ start < sp ∧
        pickBreak text start ss e0 = sp + 1)) ∨
    ((∀ j, ss ≤ j → j < e0 → ¬ punctAt text j) ∧
      ((∀ j, ss ≤ j → j < e0 → text.get? j ≠ some ' ') ∨
        (∃ sp, ss ≤ sp ∧ sp < e0 ∧ sp ≤ start ∧ text.get? sp = some ' ' ∧
          (∀ j, sp < j → j < e0 → text.get? j ≠ some ' '))) ∧
      pickBreak text start ss e0 = e0) := by
  rcases hmp : maxOpt (rfind text '.' ss e0)
      (maxOpt (rfind text '!' ss e0) (rfind text '?' ss e0)) with _ | p
  · obtain ⟨hdot, hrest⟩ := maxOpt_none _ _ hmp
    obtain ⟨hbang, hq⟩ := maxOpt_none _ _ hrest
    have hnop : ∀ j, ss ≤ j → j < e0 → ¬ punctAt text j := by
      intro j h1 h2 hp
      rcases hp with hp | hp | hp
      · exact rfind_none_spec text '.' ss e0 hE hdot j h1 h2 hp
      · exact rfind_none_spec text '!' ss e0 hE hbang j h1 h2 hp
      · exact rfind_none_spec text '?' ss e0 hE hq j h1 h2 hp
    rcases hsp : rfind text ' ' ss e0 with _ | sp
    · refine Or.inr (Or.inr ⟨hnop, Or.inl ?_, ?_⟩)
      · exact rfind_none_spec text ' ' ss e0 hE hsp
      · unfold pickBreak; rw [hmp, hsp]
    · obtain ⟨h1, h2, h3, h4⟩ := rfind_some_spec text ' ' ss e0 sp hsse hE hsp
      by_cases hst : start < sp
      · refine Or.inr (Or.inl ⟨hnop, sp, h1, h2, h3, h4, hst, ?_⟩)
        unfold pickBreak; rw [hmp, hsp]; exact if_pos hst
      · refine Or.inr (Or.inr ⟨hnop, Or.inr ⟨sp, h1, h2, by omega, h3, h4⟩, ?_⟩)
        unfold pickBreak; rw [hmp, hsp]; exact if_neg hst
  · have hdotspec := fun q (h : rfind text '.' ss e0 = some q) =>
      rfind_some_spec text '.' ss e0 q hsse hE h
    have hbangspec := fun q (h : rfind text '!' ss e0 = some q) =>
      rfind_some_spec text '!' ss e0 q hsse hE h
    have hqspec := fun q (h : rfind text '?' ss e0 = some q) =>
      rfind_some_spec text '?' ss e0 q hsse hE h
    have hpspec : ss ≤ p ∧ p < e0 ∧ punctAt text p := by
      rcases maxOpt_some_cases _ _ _ hmp with hc | hc
      · obtain ⟨a1, a2, a3, _⟩ := hdotspec p hc
        exact ⟨a1, a2, Or.inl a3⟩
      · rcases maxOpt_some_cases _ _ _ hc with hc2 | hc2
        · obtain ⟨a1, a2, a3, _⟩ := hbangspec p hc2
          exact ⟨a1, a2, Or.inr (Or.inl a3)⟩
        · obtain ⟨a1, a2, a3, _⟩ := hqspec p hc2
          exact ⟨a1, a2, Or.inr (Or.inr a3)⟩
    have hnone : ∀ (c : Char), rfind text c ss e0 = none →
        ∀ j, p < j → j < e0 → text.get? j ≠ some c := by
      intro c hc j h1 h2
      exact rfind_none_spec text c ss e0 hE hc j (by omega) h2
    have habove : ∀ j, p < j → j < e0 → ¬ punctAt text j := by
      intro j h1 h2 hp
      rcases hp with hp | hp | hp
      · rcases hdh : rfind text '.' ss e0 with _ | q
        · exact hnone '.' hdh j h1 h2 hp
        · have hqle : q ≤ p := maxOpt_lower_left _ _ _ _ hmp hdh
          exact (hdotspec q hdh).2.2.2 j (by omega) h2 hp
      · rcases hdh : rfind text '!' ss e0 with _ | q
        · exact hnone '!' hdh j h1 h2 hp
        · have hq2 : maxOpt (rfind text '!' ss e0) (rfind text '?' ss e0) = some (maxOpt (rfind text '!' ss e0) (rfind text '?' ss e0)).iget := by
            rcases hmm : maxOpt (rfind text '!' ss e0) (rfind text '?' ss e0) with _ | z
            · rw [hdh] at hmm; rcases hz : rfind text '?' ss e0 with _ | z2 <;> rw [hz] at hmm <;> simp [maxOpt] at hmm
            · simp
          have hqle : q ≤ p := by
            have hy := maxOpt_lower_right _ _ _ _ hmp hq2
            have := maxOpt_lower_left _ _ _ _ hq2 hdh
            omega
          exact (hbangspec q hdh).2.2.2 j (by omega) h2 hp
      · rcases hdh : rfind text '?' ss e0 with _ | q
        · exact hnone '?' hdh j h1 h2 hp
        · have hq2 : maxOpt (rfind text '!' ss e0) (rfind text '?' ss e0) = some (maxOpt (rfind text '!' ss e0) (rfind text '?' ss e0)).iget := by
            rcases hmm : maxOpt (rfind text '!' ss e0) (rfind text '?' ss e0) with _ | z
            · rw [hdh] at hmm; rcases hz : rfind text '!' ss e0 with _ | z2 <;> rw [hz] at hmm <;> simp [maxOpt] at hmm
            · simp
          have hqle : q ≤ p := by
            have hy := maxOpt_lower_right _ _ _ _ hmp hq2
            have := maxOpt_lower_right _ _ _ _ hq2 hdh
            omega
          exact (hqspec q hdh).2.2.2 j (by omega) h2 hp
    refine Or.inl ⟨p, hpspec.1, hpspec.2.1, hpspec.2.2, habove, ?_⟩
    unfold pickBreak; rw [hmp]

theorem computeEnd_eq_pickBreak (text : List Char) (start max_size : Nat)
    (h : min (start + max_size) text.length < text.length) :
    computeEnd text start max_size =
      pickBreak text start
        (Nat.max start (min (start + max_size) text.length - 250))
        (min (start + max_size) text.length) := by
  simp only [computeEnd]
  rw [if_pos h]

theorem searchStart_le (text : List Char) (start max_size : Nat)
    (h : min (start + max_size) text.length < text.length) :
    Nat.max start (min (start + max_size) text.length - 250) ≤
      min (start + max_size) text.length := by
  have h1 : start ≤ min (start + max_size) text.length := by
    have := tentative_eq text start max_size h
    omega
  exact Nat.max_le.mpr ⟨h1, Nat.sub_le _ _⟩

theorem computeEnd_le (text : List Char) (start max_size : Nat) :
    computeEnd text start max_size ≤ min (start + max_size) text.length := by
  by_cases hlt : min (start + max_size) text.length < text.length
  · rw [computeEnd_eq_pickBreak text start max_size hlt]
    rcases pickBreak_cases text start _ _ (searchStart_le text start max_size hlt)
        (Nat.min_le_right _ _) with
      ⟨p, _, hp2, _, _, he⟩ | ⟨_, sp, _, hs2, _, _, _, he⟩ | ⟨_, _, he⟩ <;> omega
  · simp only [computeEnd]
    rw [if_neg hlt]

theorem computeEnd_pos (text : List Char) (start max_size : Nat)
    (hmax : 0 < max_size) (hstart : start < text.length) :
    start < computeEnd text start max_size := by
  have he0pos : start < min (start + max_size) text.length :=
    lt_min (by omega) hstart
  by_cases hlt : min (start + max_size) text.length < text.length
  · rw [computeEnd_eq_pickBreak text start max_size hlt]
    have hss : start ≤ Nat.max start (min (start + max_size) text.length - 250) :=
      Nat.le_max_left _ _
    rcases pickBreak_cases text start _ _ (searchStart_le text start max_size hlt)
        (Nat.min_le_right _ _) with
      ⟨p, hp1, _, _, _, he⟩ | ⟨_, sp, _, _, _, _, hsp, he⟩ | ⟨_, _, he⟩ <;> omega
  · simp only [computeEnd]
    rw [if_neg hlt]
    exact he0pos

theorem chunkLoop_isSome (text : List Char) (max_size min_size : Nat)
    (hmax : 0 < max_size) :
    ∀ fuel start acc, text.length - start < fuel →
      (chunkLoop text max_size min_size start acc fuel).isSome = true := by
  intro fuel
  induction fuel with
  | zero => intro start acc h; omega
  | succ f ih =>
    intro start acc h
    by_cases hs : start < text.length
    · have hpos := computeEnd_pos text start max_size hmax hs
      have hfe : text.length - computeEnd text start max_size < f := by omega
      simp only [chunkLoop, if_pos hs]
      split
      · exact ih _ _ hfe
      · split
        · exact ih _ _ hfe
        · exact ih _ _ hfe
    · simp [chunkLoop, if_neg hs]

theorem computeEnd_zero_max (text : List Char) (h : 0 < text.length) :
    computeEnd text 0 0 = 0 := by
  unfold computeEnd
  have h0 : min 0 text.length = 0 := Nat.min_eq_left (Nat.zero_le _)
  rw [h0, if_pos h]
  have hr : ∀ c : Char, rfind text c (Nat.max 0 (0 - 250)) 0 = none := by
    intro c
    unfold rfind
    have : min 0 text.length - Nat.max 0 (0 - 250) = 0 := by omega
    rw [this]
    rfl
  unfold pickBreak
  rw [hr '.', hr '!', hr '?', hr ' ']
  rfl

theorem chunkLoop_zero_max (text : List Char) (min_size : Nat) (h : text ≠ []) :
    ∀ fuel acc, chunkLoop text 0 min_size 0 acc fuel = none := by
  have hlen : 0 < text.length := List.length_pos.mpr h
  intro fuel
  induction fuel with
  | zero => intro acc; rfl
  | succ f ih =>
    intro acc
    simp only [chunkLoop, if_pos hlen, computeEnd_zero_max text hlen]
    have hempty : pyStrip (pySlice text 0 0) = [] := by
      simp [pySlice, pyStrip]
    rw [hempty]
    simp only [ne_eq, not_true_eq_false, and_false, false_and, if_false]
    exact ih acc

/-- C10: the `chunk_text` loop terminates for every `max_size > 0` (each
iteration strictly advances the cursor, so `text.length + 1` iterations
suffice and the result is `some`); without that precondition (`max_size = 0`)
the loop never terminates on non-empty text (every fuel bound is exhausted:
the cursor never advances). -/
theorem claim10_termination :
    (∀ (text : List Char) (max_size min_size : Nat), 0 < max_size →
      (chunk_text text max_size min_size).isSome = true) ∧
    (∀ (text : List Char) (min_size fuel : Nat), text ≠ [] →
      chunkLoop text 0 min_size 0 [] fuel = none) := by
  constructor
  · intro text max_size min_size hmax
    exact chunkLoop_isSome text max_size min_size hmax _ 0 [] (by omega)
  · intro text min_size fuel h
    exact chunkLoop_zero_max text min_size h fuel []

/-- Witness for C10 at concrete inputs: the chunker succeeds on `"ab"` with
`max_size = 1`, and the fuelled loop returns `none` for every tested fuel at
`max_size = 0`. -/
theorem claim10_witness :
    (chunk_text (String.toList "ab") 1 0).isSome = true ∧
    chunkLoop (String.toList "ab") 0 0 0 [] 5 = none :=
  ⟨claim10_termination.1 (String.toList "ab") 1 0 (by decide),
   claim10_termination.2 (String.toList "ab") 0 5 (by decide)⟩

/-- C5 (amended): the break-point choice of `chunk_text`, when the tentative
end falls short of the end of the text, is characterized over the search
window `[max(start, end-250), end)` - the last ~250 characters of the window,
not the whole window `[start, end)`: the cut is one past the last
sentence-terminal punctuation in that window; else one past the last space
there when its index exceeds `start`; else the hard cutoff. -/
theorem claim5_break_scope (text : List Char) (start max_size : Nat)
    (h : min (start + max_size) text.length < text.length) :
    breakSpec text start max_size := by
  have hce := computeEnd_eq_pickBreak text start max_size h
  simp only [breakSpec]
  rw [hce]
  exact pickBreak_cases text start _ _ (searchStart_le text start max_size h)
    (Nat.min_le_right _ _)

/-- Witness for C5 (amended) at a concrete input: text `"a. b"`, `start = 0`,
`max_size = 2`. -/
theorem claim5_witness :
    min (0 + 2) (String.toList "a. b").length < (String.toList "a. b").length ∧
    breakSpec (String.toList "a. b") 0 2 :=
  ⟨by decide, claim5_break_scope (String.toList "a. b") 0 2 (by decide)⟩

/-!
## Helper lemmas for the amended idempotence claim (C1)
-/

theorem matchCloze_ne_brace (c : Char) (t : List Char) (h : c ≠ '{') :
    matchCloze (c :: t) = none := by
  simp [matchCloze, h]

theorem subRepl_matchCloze_id (s : List Char) (h : '{' ∉ s) :
    ∀ fuel, subRepl matchCloze fuel s = s := by
  induction s with
  | nil => intro fuel; cases fuel <;> rfl
  | cons c rest ih =>
    intro fuel
    cases fuel with
    | zero => rfl
    | succ f =>
      have hc : c ≠ '{' := fun e => h (by simp [e])
      have hrest : '{' ∉ rest := fun hm => h (List.mem_cons_of_mem c hm)
      simp only [subRepl, matchCloze_ne_brace c rest hc]
      rw [ih hrest f]

theorem hasInfix_head_mem (c : Char) (p s : List Char) (h : hasInfix (c :: p) s = true) :
    c ∈ s := by
  induction s with
  | nil => simp [hasInfix] at h
  | cons d rest ih =>
    simp only [hasInfix, Bool.or_eq_true] at h
    rcases h with h | h
    · simp only [List.isPrefixOf, Bool.and_eq_true, beq_iff_eq] at h
      simp [h.1]
    · exact List.mem_cons_of_mem d (ih h)

theorem fix_cloze_id_of_no_open (s : List Char) (h : '{' ∉ s) :
    fix_cloze_formatting s = s := by
  unfold fix_cloze_formatting
  rw [subRepl_matchCloze_id s h]
  have h2 : hasInfix ['{', 'c'] s = false := by
    cases hh : hasInfix ['{', 'c'] s
    · rfl
    · exact absurd (hasInfix_head_mem _ _ _ hh) h
  simp [h2]

/-- C1 (amended): full idempotence fails (see the counterexample: each pass
absorbs one extra closing brace after a marker); normalization is the identity
- hence idempotent - on every string containing no opening brace. -/
theorem claim1_amended_idempotent (s : List Char) (h : '{' ∉ s) :
    fix_cloze_formatting s = s ∧
    fix_cloze_formatting (fix_cloze_formatting s) = fix_cloze_formatting s := by
  have h1 := fix_cloze_id_of_no_open s h
  exact ⟨h1, by rw [h1]; exact h1⟩

/-- Witness for C1 (amended) at a concrete input. -/
theorem claim1_witness :
    '{' ∉ String.toList "No cloze here!" ∧
    fix_cloze_formatting (String.toList "No cloze here!") = String.toList "No cloze here!" ∧
    fix_cloze_formatting (fix_cloze_formatting (String.toList "No cloze here!")) =
      fix_cloze_formatting (String.toList "No cloze here!") :=
  ⟨by decide, (claim1_amended_idempotent _ (by decide)).1,
    (claim1_amended_idempotent _ (by decide)).2⟩

/-- C7: for every transcript that is empty or whitespace-only, the
orchestrator returns the empty list and passes no chunk at all to the
per-chunk generation call (the fail-fast return of `src/app.py` line 246-249),
for every adapter. -/
theorem claim7_empty_fail_fast (api : List Char → Option (List (List Char)))
    (transcript : List Char) (max_chunk_size : Nat)
    (h : transcript = [] ∨ pyIsspaceStr transcript = true) :
    get_all_anki_cards api transcript max_chunk_size = [] ∧
    get_all_calls transcript max_chunk_size = [] := by
  have hcond : (transcript.isEmpty || pyIsspaceStr transcript) = true := by
    rcases h with h | h
    · simp [h]
    · simp [h]
  have hcalls : get_all_calls transcript max_chunk_size = [] := by
    unfold get_all_calls
    rw [if_pos hcond]
  refine ⟨?_, hcalls⟩
  unfold get_all_anki_cards
  rw [hcalls]
  rfl

/-- Witness for C7 at a concrete input: the single-space transcript with a
stub adapter. -/
theorem claim7_witness :
    (String.toList " " = [] ∨ pyIsspaceStr (String.toList " ") = true) ∧
    get_all_anki_cards (fun _ => some [String.toList "x"]) (String.toList " ") 8000 = [] ∧
    get_all_calls (String.toList " ") 8000 = [] :=
  ⟨Or.inr (by decide),
   (claim7_empty_fail_fast _ _ 8000 (Or.inr (by decide))).1,
   (claim7_empty_fail_fast (fun _ => some [String.toList "x"]) _ 8000 (Or.inr (by decide))).2⟩

/-!
## Helper lemmas for chunk coverage (C2) and the chunk size bound (C3)
-/

theorem nwChars_dropWhile (l : List Char) : nwChars (l.dropWhile pyIsSpace) = nwChars l := by
  induction l with
  | nil => rfl
  | cons c rest ih =>
    by_cases hc : pyIsSpace c = true
    · have h1 : List.dropWhile pyIsSpace (c :: rest) = List.dropWhile pyIsSpace rest := by
        simp [List.dropWhile_cons, hc]
      have h2 : nwChars (c :: rest) = nwChars rest := by
        simp [nwChars, List.filter_cons, hc]
      rw [h1, ih, h2]
    · simp [List.dropWhile_cons, hc]

theorem nwChars_reverse (l : List Char) : nwChars l.reverse = (nwChars l).reverse := by
  simp [nwChars, List.filter_reverse]

theorem nwChars_pyStrip (l : List Char) : nwChars (pyStrip l) = nwChars l := by
  unfold pyStrip
  rw [nwChars_reverse, nwChars_dropWhile, nwChars_reverse, List.reverse_reverse,
    nwChars_dropWhile]

theorem nwChars_append (a b : List Char) : nwChars (a ++ b) = nwChars a ++ nwChars b := by
  simp [nwChars, List.filter_append]

theorem flatten_mergeLast (acc : List (List Char)) (c : List Char) (h : acc ≠ []) :
    (mergeLast acc c).flatten = acc.flatten ++ ' ' :: c := by
  induction acc with
  | nil => cases h rfl
  | cons x xs ih =>
    cases xs with
    | nil => simp [mergeLast]
    | cons y ys =>
      simp only [mergeLast, List.flatten_cons, ih (by simp)]
      simp

theorem drop_eq_slice_append (text : List Char) (start e : Nat)
    (h1 : start ≤ e) (h2 : e ≤ text.length) :
    text.drop start = pySlice text start e ++ text.drop e := by
  have hlen : start ≤ (text.take e).length := by
    simp [List.length_take]
    omega
  conv_lhs => rw [← List.take_append_drop e text]
  rw [List.drop_append_of_le_length hlen]
  rfl

theorem computeEnd_le_length (text : List Char) (start max_size : Nat) :
    computeEnd text start max_size ≤ text.length :=
  le_trans (computeEnd_le text start max_size) (Nat.min_le_right _ _)

theorem chunkLoop_nw (text : List Char) (max_size min_size : Nat) (hmax : 0 < max_size) :
    ∀ fuel start acc cs, chunkLoop text max_size min_size start acc fuel = some cs →
      nwChars cs.flatten = nwChars acc.flatten ++ nwChars (text.drop start) := by
  intro fuel
  induction fuel with
  | zero => intro start acc cs h; simp [chunkLoop] at h
  | succ f ih =>
    intro start acc cs h
    by_cases hs : start < text.length
    · have hse := computeEnd_pos text start max_size hmax hs
      have hle := computeEnd_le_length text start max_size
      simp only [chunkLoop, if_pos hs] at h
      have hsplit := drop_eq_slice_append text start (computeEnd text start max_size)
        (le_of_lt hse) hle
      by_cases hc1 : acc ≠ [] ∧ pyStrip (pySlice text start (computeEnd text start max_size)) ≠ [] ∧
          (pyStrip (pySlice text start (computeEnd text start max_size))).length < min_size
      · rw [if_pos hc1] at h
        rw [ih _ _ _ h, flatten_mergeLast acc _ hc1.1, hsplit]
        rw [nwChars_append, nwChars_append]
        have hsp : nwChars (' ' :: pyStrip (pySlice text start (computeEnd text start max_size))) =
            nwChars (pyStrip (pySlice text start (computeEnd text start max_size))) := by
          simp [nwChars, List.filter_cons, pyIsSpace]
        rw [hsp, nwChars_pyStrip, List.append_assoc]
      · rw [if_neg hc1] at h
        by_cases hc2 : pyStrip (pySlice text start (computeEnd text start max_size)) ≠ []
        · rw [if_pos hc2] at h
          rw [ih _ _ _ h, hsplit, nwChars_append]
          simp only [List.flatten_append, List.flatten_cons, List.flatten_nil,
            List.append_nil, nwChars_append]
          rw [nwChars_pyStrip, List.append_assoc]
        · rw [if_neg hc2] at h
          rw [ih _ _ _ h, hsplit, nwChars_append]
          have hez : nwChars (pySlice text start (computeEnd text start max_size)) = [] := by
            have : pyStrip (pySlice text start (computeEnd text start max_size)) = [] := by
              by_contra hcon
              exact hc2 hcon
            rw [← nwChars_pyStrip, this]
            rfl
          rw [hez]
          rfl
    · simp only [chunkLoop, if_neg hs] at h
      cases h
      have hd : text.drop start = [] := List.drop_eq_nil_of_le (by omega)
      rw [hd]
      simp [nwChars]

/-- C2 (amended): the chunker preserves exactly the non-whitespace characters
of the text, in order: whitespace may be dropped at chunk boundaries (each
slice is stripped) and single separator spaces are inserted at merges, but no
other character is dropped or duplicated. -/
theorem claim2_coverage (text : List Char) (max_size min_size : Nat) (hmax : 0 < max_size)
    (cs : List (List Char)) (hcs : chunk_text text max_size min_size = some cs) :
    nwChars cs.flatten = nwChars text := by
  have h := chunkLoop_nw text max_size min_size hmax (text.length + 1) 0 [] cs hcs
  simpa [nwChars] using h

/-- Witness for C2 (amended) at a concrete input. -/
theorem claim2_witness :
    0 < 4 ∧
    chunk_text (String.toList "ab  cd") 4 0 =
      some [String.toList "ab", String.toList "cd"] ∧
    nwChars (List.flatten [String.toList "ab", String.toList "cd"]) =
      nwChars (String.toList "ab  cd") :=
  ⟨by decide, by decide,
   claim2_coverage (String.toList "ab  cd") 4 0 (by decide) _ (by decide)⟩

theorem joinSp_append_single (ps : List (List Char)) (c : List Char) (h : ps ≠ []) :
    joinSp (ps ++ [c]) = joinSp ps ++ ' ' :: c := by
  induction ps with
  | nil => cases h rfl
  | cons x xs ih =>
    cases xs with
    | nil => simp [joinSp]
    | cons y ys =>
      have : (x :: y :: ys) ++ [c] = x :: ((y :: ys) ++ [c]) := by simp
      rw [this]
      show x ++ ' ' :: joinSp ((y :: ys) ++ [c]) = (x ++ ' ' :: joinSp (y :: ys)) ++ ' ' :: c
      rw [ih (by simp)]
      simp

theorem pyStrip_length_le (l : List Char) : (pyStrip l).length ≤ l.length := by
  unfold pyStrip
  rw [List.length_reverse]
  calc ((l.dropWhile pyIsSpace).reverse.dropWhile pyIsSpace).length
      ≤ (l.dropWhile pyIsSpace).reverse.length :=
        (List.dropWhile_suffix _).sublist.length_le
    _ = (l.dropWhile pyIsSpace).length := List.length_reverse _
    _ ≤ l.length := (List.dropWhile_suffix _).sublist.length_le

theorem chunk_length_le (text : List Char) (start max_size : Nat) :
    (pyStrip (pySlice text start (computeEnd text start max_size))).length ≤ max_size := by
  have h1 : computeEnd text start max_size ≤ start + max_size :=
    le_trans (computeEnd_le text start max_size) (Nat.min_le_left _ _)
  calc (pyStrip (pySlice text start (computeEnd text start max_size))).length
      ≤ (pySlice text start (computeEnd text start max_size)).length :=
        pyStrip_length_le _
    _ = (text.take (computeEnd text start max_size)).length - start := by
        simp [pySlice, List.length_drop]
    _ ≤ max_size := by
        simp [List.length_take]
        omega

theorem mergeLast_bound (max_size : Nat) (acc : List (List Char)) (c : List Char)
    (hacc : ∀ x ∈ acc, chunkBound max_size x) (hc : c.length ≤ max_size) :
    ∀ x ∈ mergeLast acc c, chunkBound max_size x := by
  induction acc with
  | nil =>
    intro x hx
    simp only [mergeLast, List.mem_singleton] at hx
    exact hx ▸ ⟨[c], by simp, by simpa using hc, rfl⟩
  | cons a xs ih =>
    cases xs with
    | nil =>
      intro x hx
      simp only [mergeLast, List.mem_singleton] at hx
      obtain ⟨ps, hps1, hps2, hps3⟩ := hacc a (by simp)
      refine hx ▸ ⟨ps ++ [c], by simp, ?_, ?_⟩
      · intro p hp
        rcases List.mem_append.mp hp with hp | hp
        · exact hps2 p hp
        · simp at hp
          exact hp ▸ hc
      · rw [joinSp_append_single ps c hps1, hps3]
    | cons y ys =>
      intro x hx
      simp only [mergeLast, List.mem_cons] at hx
      rcases hx with hx | hx
      · exact hx ▸ hacc a (by simp)
      · exact ih (fun z hz => hacc z (List.mem_cons_of_mem a hz)) x hx

theorem chunkLoop_bound (text : List Char) (max_size min_size : Nat) :
    ∀ fuel start acc cs,
      (∀ x ∈ acc, chunkBound max_size x) →
      chunkLoop text max_size min_size start acc fuel = some cs →
      ∀ x ∈ cs, chunkBound max_size x := by
  intro fuel
  induction fuel with
  | zero => intro start acc cs _ h; simp [chunkLoop] at h
  | succ f ih =>
    intro start acc cs hacc h
    by_cases hs : start < text.length
    · simp only [chunkLoop, if_pos hs] at h
      by_cases hc1 : acc ≠ [] ∧ pyStrip (pySlice text start (computeEnd text start max_size)) ≠ [] ∧
          (pyStrip (pySlice text start (computeEnd text start max_size))).length < min_size
      · rw [if_pos hc1] at h
        exact ih _ _ _ (mergeLast_bound max_size acc _ hacc (chunk_length_le text start max_size)) h
      · rw [if_neg hc1] at h
        by_cases hc2 : pyStrip (pySlice text start (computeEnd text start max_size)) ≠ []
        · rw [if_pos hc2] at h
          refine ih _ _ _ ?_ h
          intro x hx
          rcases List.mem_append.mp hx with hx | hx
          · exact hacc x hx
          · simp at hx
            exact hx ▸ ⟨[pyStrip (pySlice text start (computeEnd text start max_size))],
              by simp, by simpa using chunk_length_le text start max_size, rfl⟩
        · rw [if_neg hc2] at h
          exact ih _ _ _ hacc h
    · simp only [chunkLoop, if_neg hs] at h
      cases h
      exact hacc

/-- C3 (amended): every piece the chunker extracts has length at most
`max_size` (a hard cutoff included), so every emitted chunk is a space-joined
concatenation of pieces each of length at most `max_size`; in particular an
emitted chunk can exceed `max_size` only by having absorbed merged
under-`min_size` pieces. -/
theorem claim3_size_bound (text : List Char) (max_size min_size : Nat)
    (cs : List (List Char)) (hcs : chunk_text text max_size min_size = some cs) :
    ∀ c ∈ cs, chunkBound max_size c :=
  chunkLoop_bound text max_size min_size (text.length + 1) 0 [] cs (by simp) hcs

/-- Witness for C3 (amended) at a concrete input. -/
theorem claim3_witness :
    chunk_text (String.toList "ab. cd. ef") 4 0 =
      some [String.toList "ab.", String.toList "cd.", String.toList "ef"] ∧
    ∀ c ∈ [String.toList "ab.", String.toList "cd.", String.toList "ef"], chunkBound 4 c :=
  ⟨by decide, claim3_size_bound (String.toList "ab. cd. ef") 4 0 _ (by decide)⟩

/-!
## Helper lemmas for the whitespace invariant of the preprocessor (C8)
-/

theorem collapseGo_mem_space :
    ∀ (l : List Char) (b : Bool) (c : Char), c ∈ collapseGo b l → pyIsSpace c = true → c = ' ' := by
  intro l
  induction l with
  | nil => intro b c hc; simp [collapseGo] at hc
  | cons d rest ih =>
    intro b c hc hws
    by_cases hd : pyIsSpace d = true
    · cases b with
      | true =>
        simp only [collapseGo, hd, if_pos] at hc
        exact ih true c hc hws
      | false =>
        simp only [collapseGo, hd, if_pos] at hc
        rcases List.mem_cons.mp hc with hc | hc
        · exact hc
        · exact ih true c hc hws
    · simp only [collapseGo, hd] at hc
      rw [if_neg (by simp [hd])] at hc
      rcases List.mem_cons.mp hc with hc | hc
      · rw [hc] at hws
        rw [hws] at hd
        cases hd rfl
      · exact ih false c hc hws

theorem collapseGo_true_head :
    ∀ (l : List Char) (c : Char) (rest2 : List Char),
      collapseGo true l = c :: rest2 → pyIsSpace c = false := by
  intro l
  induction l with
  | nil => intro c rest2 h; simp [collapseGo] at h
  | cons d rest ih =>
    intro c rest2 h
    by_cases hd : pyIsSpace d = true
    · simp only [collapseGo, hd, if_pos] at h
      exact ih c rest2 h
    · simp only [collapseGo] at h
      rw [if_neg (by simp [hd])] at h
      cases h
      simp [hd]

theorem collapseGo_chain :
    ∀ (l : List Char) (b : Bool),
      List.Chain' (fun a b2 => ¬(pyIsSpace a = true ∧ pyIsSpace b2 = true)) (collapseGo b l) := by
  intro l
  induction l with
  | nil => intro b; simp [collapseGo]
  | cons d rest ih =>
    intro b
    by_cases hd : pyIsSpace d = true
    · cases b with
      | true =>
        simp only [collapseGo, hd, if_pos]
        exact ih true
      | false =>
        simp only [collapseGo, hd, if_pos]
        refine List.chain'_cons'.mpr ⟨?_, ih true⟩
        intro y hy
        rcases hc : collapseGo true rest with _ | ⟨c0, r0⟩
        · rw [hc] at hy; simp at hy
        · rw [hc] at hy
          simp at hy
          intro hcontra
          have hh := collapseGo_true_head rest c0 r0 hc
          rw [hy] at hh
          rw [hcontra.2] at hh
          exact Bool.noConfusion hh
    · simp only [collapseGo]
      rw [if_neg (by simp [hd])]
      refine List.chain'_cons'.mpr ⟨?_, ih false⟩
      intro y hy hcontra
      rw [hcontra.1] at hd
      cases hd rfl

theorem dropWhile_head_false (p : Char → Bool) :
    ∀ (l : List Char) (c : Char) (rest : List Char),
      l.dropWhile p = c :: rest → p c = false := by
  intro l
  induction l with
  | nil => intro c rest h; simp [List.dropWhile] at h
  | cons d tl ih =>
    intro c rest h
    by_cases hd : p d = true
    · rw [List.dropWhile_cons, if_pos hd] at h
      exact ih c rest h
    · rw [List.dropWhile_cons, if_neg hd] at h
      cases h
      simp [hd]

theorem pyStrip_getLast_false (l : List Char) (c : Char)
    (h : (pyStrip l).getLast? = some c) : pyIsSpace c = false := by
  unfold pyStrip at h
  rw [List.getLast?_reverse] at h
  rcases hB : ((l.dropWhile pyIsSpace).reverse.dropWhile pyIsSpace) with _ | ⟨c0, r0⟩
  · rw [hB] at h; simp at h
  · rw [hB] at h
    simp at h
    rw [← h]
    exact dropWhile_head_false pyIsSpace _ c0 r0 hB

theorem pyStrip_head_false (l : List Char) (c : Char)
    (h : (pyStrip l).head? = some c) : pyIsSpace c = false := by
  unfold pyStrip at h
  rw [List.head?_reverse] at h
  obtain ⟨t, ht⟩ := List.dropWhile_suffix (l := (l.dropWhile pyIsSpace).reverse) pyIsSpace
  rcases hB : ((l.dropWhile pyIsSpace).reverse.dropWhile pyIsSpace) with _ | ⟨c0, r0⟩
  · rw [hB] at h; simp at h
  · rw [hB] at ht h
    have hgl : (t ++ c0 :: r0).getLast? = (c0 :: r0).getLast? :=
      List.getLast?_append_of_ne_nil t (by simp)
    rw [ht] at hgl
    rw [← hgl, List.getLast?_reverse] at h
    rcases hA : l.dropWhile pyIsSpace with _ | ⟨a0, s0⟩
    · rw [hA] at h; simp at h
    · rw [hA] at h
      simp at h
      rw [← h]
      exact dropWhile_head_false pyIsSpace l a0 s0 hA

theorem pyStrip_subset (l : List Char) : ∀ c ∈ pyStrip l, c ∈ l := by
  intro c hc
  unfold pyStrip at hc
  rw [List.mem_reverse] at hc
  have h1 := (List.dropWhile_suffix (l := (l.dropWhile pyIsSpace).reverse) pyIsSpace).sublist.subset hc
  rw [List.mem_reverse] at h1
  exact (List.dropWhile_suffix pyIsSpace).sublist.subset h1

theorem pyStrip_chain (R : Char → Char → Prop) (hsym : ∀ a b, R a b → R b a)
    (l : List Char) (h : List.Chain' R l) : List.Chain' R (pyStrip l) := by
  unfold pyStrip
  have h1 : List.Chain' R (l.dropWhile pyIsSpace) := by
    obtain ⟨t, ht⟩ := List.dropWhile_suffix (l := l) pyIsSpace
    rw [← ht] at h
    exact List.Chain'.right_of_append h
  have h2 : List.Chain' R (l.dropWhile pyIsSpace).reverse := by
    rw [List.chain'_reverse]
    exact List.Chain'.imp (fun a b hab => hsym a b hab) h1
  have h3 : List.Chain' R ((l.dropWhile pyIsSpace).reverse.dropWhile pyIsSpace) := by
    obtain ⟨t, ht⟩ := List.dropWhile_suffix (l := (l.dropWhile pyIsSpace).reverse) pyIsSpace
    rw [← ht] at h2
    exact List.Chain'.right_of_append h2
  rw [List.chain'_reverse]
  exact List.Chain'.imp (fun a b hab => hsym a b hab) h3

theorem singleSpaced_strip_collapse (x : List Char) : singleSpaced (pyStrip (collapseWs x)) := by
  refine ⟨?_, ?_, ?_, ?_⟩
  · exact pyStrip_chain _ (fun a b hab h2 => hab ⟨h2.2, h2.1⟩) _ (collapseGo_chain x false)
  · intro c hc hws
    exact collapseGo_mem_space x false c (pyStrip_subset _ c hc) hws
  · intro c hc
    exact pyStrip_head_false _ c hc
  · intro c hc
    exact pyStrip_getLast_false _ c hc

/-- C8 (amended): the preprocessor output is single-spaced - it contains no
two adjacent whitespace characters, every whitespace character in it is a
plain ASCII space, and it has neither leading nor trailing whitespace.  (The
claimed absence of timestamp-pattern substrings is refuted separately: the
substitutions are single-pass and removal can juxtapose a fresh timestamp.) -/
theorem claim8_whitespace (t : List Char) : singleSpaced (preprocess_transcript t) := by
  unfold preprocess_transcript
  by_cases ht : t = []
  · rw [if_pos ht]
    exact ⟨by simp, by simp, by simp, by simp⟩
  · rw [if_neg ht]
    exact singleSpaced_strip_collapse _

/-!
## Helper lemmas for partial-failure tolerance (C4)
-/

theorem subDel_sublist (m : Option Char → List Char → Option (List Char)) :
    ∀ fuel prev s, List.Sublist (subDel m fuel prev s) s := by
  intro fuel
  induction fuel with
  | zero => intro prev s; exact List.Sublist.refl s
  | succ f ih =>
    intro prev s
    cases s with
    | nil => exact List.Sublist.refl _
    | cons c rest =>
      simp only [subDel]
      cases hm : m prev (c :: rest) with
      | none =>
        simp only [hm]
        exact List.Sublist.cons₂ c (ih (some c) rest)
      | some restAfter =>
        simp only [hm]
        by_cases hn : (c :: rest).length - restAfter.length = 0
        · rw [if_pos hn]
          exact List.Sublist.cons₂ c (ih (some c) rest)
        · rw [if_neg hn]
          exact List.Sublist.trans
            (ih ((c :: rest).get? ((c :: rest).length - restAfter.length - 1)) _)
            (List.drop_sublist _ _)

theorem vttBody_suffix : ∀ (l r : List Char), vttBody l = some r → r <:+ l := by
  intro l
  induction l with
  | nil => intro r h; simp [vttBody] at h
  | cons c rest ih =>
    intro r h
    simp only [vttBody] at h
    by_cases hc : c = '\n'
    · rw [if_pos hc] at h
      cases rest with
      | nil =>
        cases h
        exact ⟨[c], by simp⟩
      | cons d r2 =>
        change (if d = '\n' then some r2 else none) = some r at h
        by_cases hd : d = '\n'
        · rw [if_pos hd] at h
          cases h
          exact ⟨[c, d], by simp⟩
        · rw [if_neg hd] at h
          cases h
    · rw [if_neg hc] at h
      exact List.IsSuffix.trans (ih r h) (List.suffix_cons c rest)

theorem dotallBody_suffix : ∀ (l r : List Char), dotallBody l = some r → r <:+ l := by
  intro l
  induction l with
  | nil => intro r h; simp [dotallBody] at h
  | cons c rest ih =>
    intro r h
    simp only [dotallBody] at h
    by_cases hc : c = '\n'
    · rw [if_pos hc] at h
      cases rest with
      | nil =>
        cases h
        exact ⟨[c], by simp⟩
      | cons d r2 =>
        change (if d = '\n' then some r2 else dotallBody (d :: r2)) = some r at h
        by_cases hd : d = '\n'
        · rw [if_pos hd] at h
          cases h
          exact ⟨[c, d], by simp⟩
        · rw [if_neg hd] at h
          exact List.IsSuffix.trans (ih r h) (List.suffix_cons c (d :: r2))
    · rw [if_neg hc] at h
      exact List.IsSuffix.trans (ih r h) (List.suffix_cons c rest)

theorem dropCI_suffix : ∀ (pat s rest : List Char), dropCI pat s = some rest → rest <:+ s := by
  intro pat
  induction pat with
  | nil => intro s rest h; cases h; exact List.suffix_refl _
  | cons p ps ih =>
    intro s rest h
    cases s with
    | nil => simp [dropCI] at h
    | cons c cs =>
      simp only [dropCI] at h
      by_cases hc : c.toLower = p.toLower
      · rw [if_pos hc] at h
        exact List.IsSuffix.trans (ih cs rest h) (List.suffix_cons c cs)
      · rw [if_neg hc] at h
        cases h

theorem dropCS_suffix : ∀ (pat s rest : List Char), dropCS pat s = some rest → rest <:+ s := by
  intro pat
  induction pat with
  | nil => intro s rest h; cases h; exact List.suffix_refl _
  | cons p ps ih =>
    intro s rest h
    cases s with
    | nil => simp [dropCS] at h
    | cons c cs =>
      simp only [dropCS] at h
      by_cases hc : c = p
      · rw [if_pos hc] at h
        exact List.IsSuffix.trans (ih cs rest h) (List.suffix_cons c cs)
      · rw [if_neg hc] at h
        cases h

theorem stripHeader_sublist (lit : List Char) (ci dotall : Bool) (s : List Char) :
    List.Sublist (stripHeader lit ci dotall s) s := by
  unfold stripHeader
  cases hdrop : (if ci then dropCI lit s else dropCS lit s) with
  | none =>
    simp only [hdrop]
    exact List.Sublist.refl s
  | some rest =>
    simp only [hdrop]
    have hrest : rest <:+ s := by
      cases ci with
      | true => exact dropCI_suffix lit s rest (by simpa using hdrop)
      | false => exact dropCS_suffix lit s rest (by simpa using hdrop)
    cases hbody : (if dotall then dotallBody rest else vttBody rest) with
    | none =>
      simp only [hbody]
      exact List.Sublist.refl s
    | some r =>
      simp only [hbody]
      have hr : r <:+ rest := by
        cases dotall with
        | true => exact dotallBody_suffix rest r (by simpa using hbody)
        | false => exact vttBody_suffix rest r (by simpa using hbody)
      exact (hr.trans hrest).sublist

theorem collapseGo_true_allws (l : List Char) (h : ∀ c ∈ l, pyIsSpace c = true) :
    collapseGo true l = [] := by
  induction l with
  | nil => rfl
  | cons d rest ih =>
    have hd : pyIsSpace d = true := h d (by simp)
    simp only [collapseGo, hd, if_pos]
    exact ih (fun c hc => h c (List.mem_cons_of_mem d hc))

theorem strip_collapse_allws (l : List Char) (h : ∀ c ∈ l, pyIsSpace c = true) :
    pyStrip (collapseWs l) = [] := by
  cases l with
  | nil => rfl
  | cons c rest =>
    have hc : pyIsSpace c = true := h c (by simp)
    unfold collapseWs
    simp only [collapseGo, hc, if_pos]
    rw [collapseGo_true_allws rest (fun d hd => h d (List.mem_cons_of_mem c hd))]
    decide

theorem preprocess_isspace (t : List Char) (h : pyIsspaceStr t = true) :
    preprocess_transcript t = [] := by
  have hne : t ≠ [] := by
    intro he
    rw [he] at h
    simp [pyIsspaceStr] at h
  have hall : ∀ c ∈ t, pyIsSpace c = true := by
    have := (Bool.and_eq_true _ _).mp h
    intro c hc
    exact List.all_eq_true.mp this.2 c hc
  unfold preprocess_transcript
  rw [if_neg hne]
  apply strip_collapse_allws
  intro c hc
  apply hall
  have h1 := stripHeader_sublist (String.toList "REGION") false true
    (stripHeader (String.toList "STYLE") false true
      (stripHeader (String.toList "NOTE") false true
        (stripHeader (String.toList "WEBVTT") true false
          (speakerSub (srtIdxSub (bareTsSub (srtSub (vttSub t))))))))
  have h2 := stripHeader_sublist (String.toList "STYLE") false true
    (stripHeader (String.toList "NOTE") false true
      (stripHeader (String.toList "WEBVTT") true false
        (speakerSub (srtIdxSub (bareTsSub (srtSub (vttSub t)))))))
  have h3 := stripHeader_sublist (String.toList "NOTE") false true
    (stripHeader (String.toList "WEBVTT") true false
      (speakerSub (srtIdxSub (bareTsSub (srtSub (vttSub t))))))
  have h4 := stripHeader_sublist (String.toList "WEBVTT") true false
    (speakerSub (srtIdxSub (bareTsSub (srtSub (vttSub t)))))
  have h5 : List.Sublist (speakerSub (srtIdxSub (bareTsSub (srtSub (vttSub t)))))
      (srtIdxSub (bareTsSub (srtSub (vttSub t)))) := subDel_sublist _ _ _ _
  have h6 : List.Sublist (srtIdxSub (bareTsSub (srtSub (vttSub t))))
      (bareTsSub (srtSub (vttSub t))) := subDel_sublist _ _ _ _
  have h7 : List.Sublist (bareTsSub (srtSub (vttSub t))) (srtSub (vttSub t)) :=
    subDel_sublist _ _ _ _
  have h8 : List.Sublist (srtSub (vttSub t)) (vttSub t) := subDel_sublist _ _ _ _
  have h9 : List.Sublist (vttSub t) t := subDel_sublist _ _ _ _
  exact h9.subset (h8.subset (h7.subset (h6.subset (h5.subset
    (h4.subset (h3.subset (h2.subset (h1.subset hc))))))))

theorem pyStrip_ne_nil_witness (l : List Char) (h : pyStrip l ≠ []) :
    ∃ y ∈ pyStrip l, pyIsSpace y = false := by
  rcases hB : ((l.dropWhile pyIsSpace).reverse.dropWhile pyIsSpace) with _ | ⟨c0, r0⟩
  · exfalso
    apply h
    unfold pyStrip
    rw [hB]
    rfl
  · refine ⟨c0, ?_, dropWhile_head_false pyIsSpace _ c0 r0 hB⟩
    unfold pyStrip
    rw [hB]
    simp

theorem chunkLoop_nonspace (text : List Char) (max_size min_size : Nat) :
    ∀ fuel start acc cs,
      (∀ x ∈ acc, ∃ y ∈ x, pyIsSpace y = false) →
      chunkLoop text max_size min_size start acc fuel = some cs →
      ∀ x ∈ cs, ∃ y ∈ x, pyIsSpace y = false := by
  intro fuel
  induction fuel with
  | zero => intro start acc cs _ h; simp [chunkLoop] at h
  | succ f ih =>
    intro start acc cs hacc h
    by_cases hs : start < text.length
    · simp only [chunkLoop, if_pos hs] at h
      by_cases hc1 : acc ≠ [] ∧ pyStrip (pySlice text start (computeEnd text start max_size)) ≠ [] ∧
          (pyStrip (pySlice text start (computeEnd text start max_size))).length < min_size
      · rw [if_pos hc1] at h
        refine ih _ _ _ ?_ h
        have hw := pyStrip_ne_nil_witness _ hc1.2.1
        clear h
        revert hacc
        generalize pyStrip (pySlice text start (computeEnd text start max_size)) = ch at hw ⊢
        intro hacc
        induction acc with
        | nil => cases hc1.1 rfl
        | cons a xs ihacc =>
          cases xs with
          | nil =>
            intro x hx
            simp only [mergeLast, List.mem_singleton] at hx
            obtain ⟨y, hy1, hy2⟩ := hacc a (by simp)
            exact hx ▸ ⟨y, List.mem_append_left _ hy1, hy2⟩
          | cons b ys =>
            intro x hx
            simp only [mergeLast, List.mem_cons] at hx
            rcases hx with hx | hx
            · exact hx ▸ hacc a (by simp)
            · exact ihacc ⟨(by simp), hc1.2⟩ (fun z hz => hacc z (List.mem_cons_of_mem a hz)) x hx
      · rw [if_neg hc1] at h
        by_cases hc2 : pyStrip (pySlice text start (computeEnd text start max_size)) ≠ []
        · rw [if_pos hc2] at h
          refine ih _ _ _ ?_ h
          intro x hx
          rcases List.mem_append.mp hx with hx | hx
          · exact hacc x hx
          · simp at hx
            exact hx ▸ pyStrip_ne_nil_witness _ hc2
        · rw [if_neg hc2] at h
          exact ih _ _ _ hacc h
    · simp only [chunkLoop, if_neg hs] at h
      cases h
      exact hacc

theorem chunk_text_nonspace (text : List Char) (max_size min_size : Nat)
    (cs : List (List Char)) (hcs : chunk_text text max_size min_size = some cs) :
    ∀ x ∈ cs, ∃ y ∈ x, pyIsSpace y = false :=
  chunkLoop_nonspace text max_size min_size (text.length + 1) 0 [] cs (by simp) hcs

theorem nonspace_pred (c : List Char) (h : ∃ y ∈ c, pyIsSpace y = false) :
    (!(c.isEmpty || pyIsspaceStr c)) = true := by
  obtain ⟨y, hy1, hy2⟩ := h
  have hne : c.isEmpty = false := by
    cases c with
    | nil => simp at hy1
    | cons a l => rfl
  have hsp : pyIsspaceStr c = false := by
    unfold pyIsspaceStr
    rw [hne]
    simp only [Bool.not_false, Bool.true_and]
    have hnt : ¬ c.all pyIsSpace = true := by
      rw [List.all_eq_true]
      push_neg
      exact ⟨y, hy1, by simp [hy2]⟩
    exact Bool.eq_false_iff.mpr hnt
  simp [hne, hsp]

theorem flatten_map_eraseIdx (f : List Char → List (List Char)) :
    ∀ (cs : List (List Char)) (k : Nat), k < cs.length → f (cs.getD k []) = [] →
      (cs.map f).flatten = ((cs.eraseIdx k).map f).flatten := by
  intro cs
  induction cs with
  | nil => intro k hk; simp at hk
  | cons c rest ih =>
    intro k hk hf
    cases k with
    | zero =>
      simp only [List.getD_cons_zero] at hf
      simp [List.eraseIdx, hf]
    | succ k2 =>
      simp only [List.getD_cons_succ] at hf
      simp only [List.eraseIdx, List.map_cons, List.flatten_cons]
      rw [ih k2 (by simpa using hk) hf]

theorem chunk_text_nil_eq (max_size min_size : Nat) :
    chunk_text ([] : List Char) max_size min_size = some [] := rfl

/-- C4: partial-failure tolerance.  For any transcript whose cleaned text
splits into the chunks `cs`, any index `k` of a failing chunk (the adapter
call raises - modelled as `none`, caught by the handler of `src/app.py` lines
238-241 - or returns an empty list) while all other chunks succeed, the
orchestrator returns exactly the per-chunk normalized card lists of the N-1
succeeding chunks, concatenated in original chunk order; no exception escapes
(the model is a total function) and the failing chunk contributes nothing. -/
theorem claim4_failure_tolerance (transcript : List Char) (max_chunk_size k : Nat)
    (api : List Char → Option (List (List Char))) (cs : List (List Char))
    (hcs : chunk_text (preprocess_transcript transcript) max_chunk_size = some cs)
    (hk : k < cs.length)
    (hfail : api (cs.getD k []) = none ∨ api (cs.getD k []) = some [])
    (_hsucc : ∀ j, j < cs.length → j ≠ k →
      api (cs.getD j []) ≠ none ∧ api (cs.getD j []) ≠ some []) :
    get_all_anki_cards api transcript max_chunk_size =
      ((cs.eraseIdx k).map (get_anki_cards_for_chunk api)).flatten := by
  have hcsne : cs ≠ [] := by
    intro he
    rw [he] at hk
    simp at hk
  have hclne : preprocess_transcript transcript ≠ [] := by
    intro he
    rw [he, chunk_text_nil_eq] at hcs
    exact hcsne (Option.some_injective _ hcs.symm)
  have hempty : (transcript.isEmpty || pyIsspaceStr transcript) = false := by
    cases hie : transcript.isEmpty with
    | true =>
      exfalso
      apply hclne
      have : transcript = [] := List.isEmpty_iff.mp hie
      rw [this]
      rfl
    | false =>
      cases hsp : pyIsspaceStr transcript with
      | true => exact absurd (preprocess_isspace transcript hsp) hclne
      | false => rfl
  have hcalls : get_all_calls transcript max_chunk_size = cs := by
    unfold get_all_calls
    rw [hempty]
    simp only [Bool.false_eq_true, if_false]
    have hclb : (preprocess_transcript transcript).isEmpty = false := by
      cases hx : (preprocess_transcript transcript).isEmpty with
      | true => exact absurd (List.isEmpty_iff.mp hx) hclne
      | false => rfl
    rw [hclb]
    simp only [Bool.false_eq_true, if_false, hcs, Option.getD_some]
    have hcsb : cs.isEmpty = false := by
      cases hx : cs.isEmpty with
      | true => exact absurd (List.isEmpty_iff.mp hx) hcsne
      | false => rfl
    rw [hcsb]
    simp only [Bool.false_eq_true, if_false]
    rw [List.filter_eq_self]
    intro c hcmem
    exact nonspace_pred c (chunk_text_nonspace _ _ _ cs hcs c hcmem)
  unfold get_all_anki_cards
  rw [hcalls]
  apply flatten_map_eraseIdx (get_anki_cards_for_chunk api) cs k hk
  unfold get_anki_cards_for_chunk
  rcases hfail with h | h
  · rw [h]
  · rw [h]
    rfl

set_option maxRecDepth 1000000 in
/-- Witness for C4 at concrete inputs: `tW` splits into the two chunks `csW`;
the stub adapter `apiW` fails on the first chunk and succeeds on the second;
the orchestrator returns exactly the second chunk's normalized cards. -/
theorem claim4_witness :
    chunk_text (preprocess_transcript tW) 205 = some csW ∧
    0 < csW.length ∧
    (apiW (csW.getD 0 []) = none ∨ apiW (csW.getD 0 []) = some []) ∧
    (∀ j, j < csW.length → j ≠ 0 →
      apiW (csW.getD j []) ≠ none ∧ apiW (csW.getD j []) ≠ some []) ∧
    get_all_anki_cards apiW tW 205 =
      ((csW.eraseIdx 0).map (get_anki_cards_for_chunk apiW)).flatten := by
  have h1 : chunk_text (preprocess_transcript tW) 205 = some csW := by decide
  have h2 : 0 < csW.length := by decide
  have h3 : apiW (csW.getD 0 []) = none ∨ apiW (csW.getD 0 []) = some [] :=
    Or.inl (by decide)
  have h4 : ∀ j, j < csW.length → j ≠ 0 →
      apiW (csW.getD j []) ≠ none ∧ apiW (csW.getD j []) ≠ some [] := by decide
  exact ⟨h1, h2, h3, h4, claim4_failure_tolerance tW 205 0 apiW csW h1 h2 h3 h4⟩
